import Mathlib

/-!
Verification of the flat-tree library: a bijection between nodes of a
complete binary tree and positions in a flat, zero-indexed integer
sequence, with O(1) navigation primitives and a stateful cursor.

Machine integers (`usize`) are modelled as `Nat`; the library's
arithmetic never relies on wrap-around, and subtractions occur only where
the minuend is provably large enough.  The `assert!` guarding the
full-roots iterator constructor is modelled as `Except.error`.
-/

namespace FlatTree

/-- `is_even` from lib.rs: `(num & 1) == 0`. -/
def is_even (num : Nat) : Bool := (num &&& 1) == 0

/-- `is_odd` from lib.rs: `(num & 1) != 0`. -/
def is_odd (num : Nat) : Bool := (num &&& 1) != 0

/-- `index` from lib.rs: `(offset << (depth + 1)) | ((1 << depth) - 1)`. -/
def index (depth offset : Nat) : Nat :=
  (offset <<< (depth + 1)) ||| ((1 <<< depth) - 1)

/-- `depth` from lib.rs: halve while odd, counting steps. -/
def depth (i : Nat) : Nat :=
  if is_odd i then depth (i >>> 1) + 1 else 0
decreasing_by
  simp only [is_odd, bne_iff_ne, ne_eq, Nat.and_one_is_mod] at *
  simp only [Nat.shiftRight_succ, Nat.shiftRight_zero]
  omega

/-- `offset_with_depth` from lib.rs. -/
def offset_with_depth (i depth : Nat) : Nat :=
  if is_even i then i / 2 else i >>> (depth + 1)

/-- `offset` from lib.rs. -/
def offset (i : Nat) : Nat := offset_with_depth i (depth i)

/-- `parent_with_depth` from lib.rs. -/
def parent_with_depth (i depth : Nat) : Nat :=
  index (depth + 1) (offset_with_depth i depth >>> 1)

/-- `parent` from lib.rs. -/
def parent (i : Nat) : Nat := parent_with_depth i (depth i)

/-- `sibling_with_depth` from lib.rs; note the source calls `offset i`
(which re-derives the depth of `i`), not `offset_with_depth i depth`. -/
def sibling_with_depth (i depth : Nat) : Nat :=
  index depth (offset i ^^^ 1)

/-- `sibling` from lib.rs. -/
def sibling (i : Nat) : Nat := sibling_with_depth i (depth i)

/-- `left_child_with_depth` from lib.rs. -/
def left_child_with_depth (i depth : Nat) : Option Nat :=
  if is_even i then none
  else if depth = 0 then some i
  else some (index (depth - 1) (offset_with_depth i depth <<< 1))

/-- `left_child` from lib.rs. -/
def left_child (i : Nat) : Option Nat := left_child_with_depth i (depth i)

/-- `right_child_with_depth` from lib.rs. -/
def right_child_with_depth (i depth : Nat) : Option Nat :=
  if is_even i then none
  else if depth = 0 then some i
  else some (index (depth - 1) ((offset_with_depth i depth <<< 1) + 1))

/-- `right_child` from lib.rs. -/
def right_child (i : Nat) : Option Nat := right_child_with_depth i (depth i)

/-- `right_span_with_depth` from lib.rs. -/
def right_span_with_depth (i depth : Nat) : Nat :=
  if depth = 0 then i else (offset_with_depth i depth + 1) * (2 <<< depth) - 2

/-- `right_span` from lib.rs. -/
def right_span (i : Nat) : Nat := right_span_with_depth i (depth i)

/-- `left_span_with_depth` from lib.rs. -/
def left_span_with_depth (i depth : Nat) : Nat :=
  if depth = 0 then i else offset_with_depth i depth * (2 <<< depth)

/-- `left_span` from lib.rs. -/
def left_span (i : Nat) : Nat := left_span_with_depth i (depth i)

/-- The `while factor * 2 <= tmp { factor *= 2 }` loop of
`FullRootsIterator::next`, parametrised by the running `factor`.  The loop
is only ever entered with `factor = 1` and `factor` only grows, so the
`factor = 0` guard (needed for termination) is never taken at call sites. -/
def growFactor (factor tmp : Nat) : Nat :=
  if factor = 0 then 0
  else if factor * 2 ≤ tmp then growFactor (factor * 2) tmp
  else factor
termination_by tmp - factor
decreasing_by omega

theorem growFactor_pos {factor tmp : Nat} (h : 0 < factor) :
    0 < growFactor factor tmp := by
  rw [growFactor]
  split
  · omega
  · split
    · exact growFactor_pos (by omega)
    · exact h
termination_by tmp - factor
decreasing_by omega

/-- The full stream of `FullRootsIterator` with state `(tmp, offset)`:
each step finds the largest power of two `factor ≤ tmp`, emits
`offset + factor - 1`, advances `offset` by `2 * factor` and decreases
`tmp` by `factor`, stopping at `tmp = 0`. -/
def fullRootsList (tmp offset : Nat) : List Nat :=
  if h : tmp = 0 then []
  else
    (offset + growFactor 1 tmp - 1) ::
      fullRootsList (tmp - growFactor 1 tmp) (offset + 2 * growFactor 1 tmp)
termination_by tmp
decreasing_by
  have := @growFactor_pos 1 tmp (by omega)
  omega

/-- `iter_full_roots` from lib.rs; the `assert!(is_even(i))` panic is
modelled as `Except.error`. -/
def iter_full_roots (i : Nat) : Except String (List Nat) :=
  if is_even i then Except.ok (fullRootsList (i >>> 1) 0)
  else Except.error "You can only look up roots for depth 0 blocks"

/-- `full_roots` from lib.rs: `nodes.extend(iter_full_roots(i))`.  A `Vec`
is modelled as a `List`; `extend` appends the emitted stream, and the
panic of `iter_full_roots` propagates. -/
def full_roots (i : Nat) (nodes : List Nat) : Except String (List Nat) :=
  (iter_full_roots i).map (fun roots => nodes ++ roots)

/-- `two_pow` from iterator.rs: branches at 31 to avoid shift overflow. -/
def two_pow (n : Nat) : Nat :=
  if n < 31 then 1 <<< n else (1 <<< 30) * (1 <<< (n - 30))

/-- The cursor state of iterator.rs. -/
structure Iterator where
  index : Nat
  offset : Nat
  factor : Nat
deriving DecidableEq, Repr

/-- `Iterator::seek` (also the state `Iterator::new(i)` ends in, since
`new` zero-initialises and then seeks). -/
def Iterator.seek (i : Nat) : Iterator :=
  if is_odd i then ⟨i, FlatTree.offset i, two_pow (FlatTree.depth i + 1)⟩
  else ⟨i, i / 2, 2⟩

/-- `Iterator::next` (the `std::iter::Iterator` impl, always `Some`). -/
def Iterator.next (c : Iterator) : Iterator :=
  ⟨c.index + c.factor, c.offset + 1, c.factor⟩

/-- `Iterator::prev`. -/
def Iterator.prev (c : Iterator) : Iterator :=
  if c.offset = 0 then c else ⟨c.index - c.factor, c.offset - 1, c.factor⟩

/-- `Iterator::is_left`. -/
def Iterator.is_left (c : Iterator) : Bool := is_even c.offset

/-- `Iterator::is_right`. -/
def Iterator.is_right (c : Iterator) : Bool := is_odd c.offset

/-- `Iterator::sibling`. -/
def Iterator.sibling (c : Iterator) : Iterator :=
  if c.is_left then c.next else c.prev

/-- `Iterator::parent`. -/
def Iterator.parent (c : Iterator) : Iterator :=
  if is_odd c.offset then
    ⟨c.index - c.factor / 2, (c.offset - 1) / 2, c.factor * 2⟩
  else
    ⟨c.index + c.factor / 2, c.offset / 2, c.factor * 2⟩

/-- `Iterator::left_span`: the new offset is the new index halved. -/
def Iterator.left_span (c : Iterator) : Iterator :=
  ⟨c.index + 1 - c.factor / 2, (c.index + 1 - c.factor / 2) / 2, 2⟩

/-- `Iterator::right_span`: the new offset is the new index halved. -/
def Iterator.right_span (c : Iterator) : Iterator :=
  ⟨c.index + c.factor / 2 - 1, (c.index + c.factor / 2 - 1) / 2, 2⟩

/-- `Iterator::left_child`: `factor` is halved first, then the index is
decreased by half the new factor. -/
def Iterator.left_child (c : Iterator) : Iterator :=
  if c.factor = 2 then c
  else ⟨c.index - c.factor / 2 / 2, c.offset * 2, c.factor / 2⟩

/-- `Iterator::right_child`: `factor` is halved first, then the index is
increased by half the new factor. -/
def Iterator.right_child (c : Iterator) : Iterator :=
  if c.factor = 2 then c
  else ⟨c.index + c.factor / 2 / 2, 2 * c.offset + 1, c.factor / 2⟩

/-! ### Arithmetic form of the primitives -/

theorem index_eq (d o : Nat) : index d o = o * 2 ^ (d + 1) + (2 ^ d - 1) := by
  have h : (2 : Nat) ^ d - 1 < 2 ^ (d + 1) := by
    have := Nat.one_le_two_pow (n := d)
    have := Nat.pow_lt_pow_succ (a := 2) (by omega) (n := d)
    omega
  rw [index, Nat.shiftLeft_eq, Nat.shiftLeft_eq, Nat.one_mul,
    Nat.mul_comm, ← Nat.mul_add_lt_is_or h, Nat.mul_comm]

theorem is_odd_iff {n : Nat} : is_odd n = true ↔ n % 2 = 1 := by
  simp [is_odd, Nat.and_one_is_mod]

theorem is_even_iff {n : Nat} : is_even n = true ↔ n % 2 = 0 := by
  simp [is_even, Nat.and_one_is_mod]

theorem two_pow_eq (n : Nat) : two_pow n = 2 ^ n := by
  rw [two_pow]
  split
  · rw [Nat.shiftLeft_eq, Nat.one_mul]
  · rw [Nat.shiftLeft_eq, Nat.shiftLeft_eq, Nat.one_mul, Nat.one_mul,
      ← Nat.pow_add]
    congr 1
    omega

theorem depth_of_even {i : Nat} (h : i % 2 = 0) : depth i = 0 := by
  rw [depth, if_neg]
  simp [is_odd_iff, h]

theorem depth_of_odd {i : Nat} (h : i % 2 = 1) : depth i = depth (i / 2) + 1 := by
  rw [depth, if_pos]
  · rw [Nat.shiftRight_eq_div_pow, pow_one]
  · exact is_odd_iff.mpr h

/-- `i` is the node at depth `d` and offset `o`, in subtraction-free form:
`index d o = o * 2^(d+1) + 2^d - 1`. -/
def Canon (i o d : Nat) : Prop := i + 1 = o * 2 ^ (d + 1) + 2 ^ d

theorem canon_index (d o : Nat) : Canon (index d o) o d := by
  have h1 : (1 : Nat) ≤ 2 ^ d := Nat.one_le_two_pow
  rw [Canon, index_eq]
  omega

theorem even_of_canon_zero {i o : Nat} (h : Canon i o 0) : i % 2 = 0 := by
  rw [Canon] at h
  omega

theorem odd_of_canon_succ {i o d : Nat} (h : Canon i o (d + 1)) : i % 2 = 1 := by
  rw [Canon] at h
  have h2 : (2 : Nat) ^ (d + 1) = 2 ^ d * 2 := pow_succ 2 d
  have h3 : (2 : Nat) ^ (d + 1 + 1) = 2 ^ d * 2 * 2 := by
    rw [pow_succ, h2]
  have h4 : o * (2 ^ d * 2 * 2) = o * (2 ^ d * 2) * 2 := by ring
  rw [h3, h2, h4] at h
  omega

theorem div_two_canon {i o d : Nat} (h : Canon i o (d + 1)) :
    Canon (i / 2) o d := by
  have hodd := odd_of_canon_succ h
  rw [Canon] at h ⊢
  simp only [pow_succ] at h ⊢
  ring_nf at h ⊢
  omega

theorem depth_of_canon {i o d : Nat} (h : Canon i o d) : depth i = d := by
  induction d generalizing i o with
  | zero => exact depth_of_even (even_of_canon_zero h)
  | succ d ih =>
    rw [depth_of_odd (odd_of_canon_succ h), ih (div_two_canon h)]

theorem div_of_canon {i o d : Nat} (h : Canon i o d) :
    i / 2 ^ (d + 1) = o := by
  have h1 : (1 : Nat) ≤ 2 ^ d := Nat.one_le_two_pow
  have h2 : (2 : Nat) ^ (d + 1) = 2 ^ d * 2 := pow_succ 2 d
  have hi : i = 2 ^ (d + 1) * o + (2 ^ d - 1) := by
    rw [Canon] at h
    rw [Nat.mul_comm]
    omega
  rw [hi, Nat.mul_add_div (Nat.two_pow_pos _),
    Nat.div_eq_of_lt (by omega), Nat.add_zero]

theorem owd_of_canon {i o d : Nat} (h : Canon i o d) :
    offset_with_depth i d = o := by
  match d with
  | 0 =>
    have he := even_of_canon_zero h
    rw [offset_with_depth, if_pos (is_even_iff.mpr he)]
    rw [Canon] at h
    omega
  | d + 1 =>
    have ho := odd_of_canon_succ h
    rw [offset_with_depth, if_neg (by simp [is_even_iff, ho]),
      Nat.shiftRight_eq_div_pow]
    exact div_of_canon h

theorem offset_of_canon {i o d : Nat} (h : Canon i o d) : offset i = o := by
  rw [offset, depth_of_canon h]
  exact owd_of_canon h

theorem canon_self (i : Nat) : Canon i (offset i) (depth i) := by
  induction i using Nat.strong_induction_on with
  | _ i ih =>
    rcases Nat.even_or_odd i with he | ho
    · have he2 : i % 2 = 0 := Nat.even_iff.mp he
      have hd := depth_of_even he2
      have hoff : offset i = i / 2 := by
        rw [offset, hd, offset_with_depth, if_pos (is_even_iff.mpr he2)]
      rw [Canon, hd, hoff, pow_one, pow_zero]
      omega
    · have ho2 : i % 2 = 1 := Nat.odd_iff.mp ho
      have hpos : 0 < i := by omega
      have hc := ih (i / 2) (by omega)
      have hdiv : i / 2 / 2 ^ (depth (i / 2) + 1) = offset (i / 2) :=
        div_of_canon hc
      have hd := depth_of_odd ho2
      have hoff : offset i = offset (i / 2) := by
        rw [offset, hd, offset_with_depth, if_neg (by simp [is_even_iff, ho2]),
          Nat.shiftRight_eq_div_pow, pow_succ, Nat.mul_comm,
          ← Nat.div_div_eq_div_mul]
        exact hdiv
      rw [Canon] at hc
      rw [Canon, hd, hoff]
      simp only [pow_succ] at hc ⊢
      ring_nf at hc ⊢
      omega

theorem canon_unique_index {i o d : Nat} (h : Canon i o d) :
    i = index d o := by
  have h1 : (1 : Nat) ≤ 2 ^ d := Nat.one_le_two_pow
  rw [Canon] at h
  rw [index_eq]
  omega

theorem xor_one_of_even {o : Nat} (h : o % 2 = 0) : o ^^^ 1 = o + 1 := by
  have hd : (o ^^^ 1) / 2 = o / 2 := by
    rw [Nat.xor_div_two]
    norm_num
  have hm : (o ^^^ 1) % 2 = 1 := by
    rw [Nat.xor_mod_two_eq]
    omega
  omega

theorem xor_one_of_odd {o : Nat} (h : o % 2 = 1) : o ^^^ 1 = o - 1 := by
  have hd : (o ^^^ 1) / 2 = o / 2 := by
    rw [Nat.xor_div_two]
    norm_num
  have hm : (o ^^^ 1) % 2 = 0 := by
    have := Nat.xor_mod_two_eq (m := o) (n := 1)
    omega
  omega

theorem parent_of_canon {i o d : Nat} (h : Canon i o d) :
    parent i = index (d + 1) (o / 2) := by
  have hd := depth_of_canon h
  have ho : offset_with_depth i (depth i) = o := by
    rw [hd]
    exact owd_of_canon h
  rw [parent, parent_with_depth, ho, hd, Nat.shiftRight_eq_div_pow, pow_one]

theorem sibling_of_canon {i o d : Nat} (h : Canon i o d) :
    sibling i = index d (o ^^^ 1) := by
  have hd := depth_of_canon h
  rw [sibling, sibling_with_depth, hd, offset_of_canon h]

theorem left_span_of_canon {i o d : Nat} (h : Canon i o d) :
    left_span i = o * 2 ^ (d + 1) := by
  have hd := depth_of_canon h
  rw [left_span, hd, left_span_with_depth]
  match d with
  | 0 =>
    rw [if_pos rfl]
    rw [Canon] at h
    omega
  | d + 1 =>
    rw [if_neg (by omega), owd_of_canon h, Nat.shiftLeft_eq]
    ring

theorem right_span_of_canon {i o d : Nat} (h : Canon i o d) :
    right_span i = (o + 1) * 2 ^ (d + 1) - 2 := by
  have hd := depth_of_canon h
  rw [right_span, hd, right_span_with_depth]
  match d with
  | 0 =>
    rw [if_pos rfl]
    rw [Canon] at h
    omega
  | d + 1 =>
    rw [if_neg (by omega), owd_of_canon h, Nat.shiftLeft_eq]
    ring_nf

theorem left_child_of_canon_zero {i o : Nat} (h : Canon i o 0) :
    left_child i = none := by
  have hd := depth_of_canon h
  rw [left_child, hd, left_child_with_depth,
    if_pos (is_even_iff.mpr (even_of_canon_zero h))]

theorem left_child_of_canon_succ {i o d : Nat} (h : Canon i o (d + 1)) :
    left_child i = some (index d (o * 2)) := by
  have hd := depth_of_canon h
  rw [left_child, hd, left_child_with_depth,
    if_neg (by simp [is_even_iff, odd_of_canon_succ h]), if_neg (by omega),
    owd_of_canon h, Nat.shiftLeft_eq, pow_one, Nat.add_sub_cancel]

theorem right_child_of_canon_zero {i o : Nat} (h : Canon i o 0) :
    right_child i = none := by
  have hd := depth_of_canon h
  rw [right_child, hd, right_child_with_depth,
    if_pos (is_even_iff.mpr (even_of_canon_zero h))]

theorem right_child_of_canon_succ {i o d : Nat} (h : Canon i o (d + 1)) :
    right_child i = some (index d (o * 2 + 1)) := by
  have hd := depth_of_canon h
  rw [right_child, hd, right_child_with_depth,
    if_neg (by simp [is_even_iff, odd_of_canon_succ h]), if_neg (by omega),
    owd_of_canon h, Nat.shiftLeft_eq, pow_one, Nat.add_sub_cancel]

/-! ### Cursor consistency -/

/-- The cursor consistency invariant: `offset` is the stateless offset of
`index`, and `factor` is `2 ^ (depth index + 1)`. -/
def inv (c : Iterator) : Prop :=
  c.offset = offset c.index ∧ c.factor = 2 ^ (depth c.index + 1)

theorem inv_intro {c : Iterator} {o d : Nat} (hc : Canon c.index o d)
    (ho : c.offset = o) (hf : c.factor = 2 ^ (d + 1)) : inv c := by
  refine ⟨?_, ?_⟩
  · rw [ho, offset_of_canon hc]
  · rw [hf, depth_of_canon hc]

theorem canon_next {i o d : Nat} (h : Canon i o d) :
    Canon (i + 2 ^ (d + 1)) (o + 1) d := by
  rw [Canon] at h ⊢
  ring_nf at h ⊢
  omega

theorem canon_prev {i q d : Nat} (h : Canon i (q + 1) d) :
    Canon (i - 2 ^ (d + 1)) q d ∧ 2 ^ (d + 1) ≤ i := by
  rw [Canon] at h ⊢
  have hp : (1 : Nat) ≤ 2 ^ d := Nat.one_le_two_pow
  ring_nf at h ⊢
  omega

theorem canon_parent_left {i q d : Nat} (h : Canon i (2 * q) d) :
    Canon (i + 2 ^ d) q (d + 1) := by
  rw [Canon] at h ⊢
  simp only [pow_succ] at h ⊢
  ring_nf at h ⊢
  omega

theorem canon_parent_right {i q d : Nat} (h : Canon i (2 * q + 1) d) :
    Canon (i - 2 ^ d) q (d + 1) ∧ 2 ^ d ≤ i := by
  rw [Canon] at h ⊢
  have hp : (1 : Nat) ≤ 2 ^ d := Nat.one_le_two_pow
  simp only [pow_succ] at h ⊢
  ring_nf at h ⊢
  omega

theorem canon_left_child {i o d : Nat} (h : Canon i o (d + 1)) :
    Canon (i - 2 ^ d) (o * 2) d ∧ 2 ^ d ≤ i := by
  rw [Canon] at h ⊢
  have hp : (1 : Nat) ≤ 2 ^ d := Nat.one_le_two_pow
  simp only [pow_succ] at h ⊢
  ring_nf at h ⊢
  omega

theorem canon_right_child {i o d : Nat} (h : Canon i o (d + 1)) :
    Canon (i + 2 ^ d) (o * 2 + 1) d := by
  rw [Canon] at h ⊢
  simp only [pow_succ] at h ⊢
  ring_nf at h ⊢
  omega

theorem canon_left_span {i o d : Nat} (h : Canon i o d) :
    i + 1 - 2 ^ d = o * 2 ^ (d + 1) ∧ 2 ^ d ≤ i + 1 ∧
      Canon (o * 2 ^ (d + 1)) (o * 2 ^ d) 0 := by
  rw [Canon] at h
  have hp : (1 : Nat) ≤ 2 ^ d := Nat.one_le_two_pow
  refine ⟨?_, ?_, ?_⟩
  · simp only [pow_succ] at h ⊢
    ring_nf at h ⊢
    omega
  · omega
  · rw [Canon]
    simp only [pow_succ, pow_zero]
    ring_nf

theorem canon_right_span {i o d : Nat} (h : Canon i o d) :
    i + 2 ^ d - 1 = (o + 1) * 2 ^ (d + 1) - 2 ∧
      (i + 2 ^ d - 1) / 2 = (o + 1) * 2 ^ d - 1 ∧
      Canon (i + 2 ^ d - 1) ((o + 1) * 2 ^ d - 1) 0 := by
  rw [Canon] at h
  have hp : (1 : Nat) ≤ 2 ^ d := Nat.one_le_two_pow
  have key : i + 2 ^ d = (o + 1) * 2 ^ d * 2 - 1 := by
    simp only [pow_succ] at h
    ring_nf at h ⊢
    omega
  refine ⟨?_, ?_, ?_⟩
  · simp only [pow_succ]
    ring_nf at key ⊢
    omega
  · omega
  · rw [Canon, pow_zero, pow_succ, pow_zero]
    omega

theorem seek_spec (i : Nat) : (Iterator.seek i).index = i ∧ inv (Iterator.seek i) := by
  rw [Iterator.seek]
  split
  · exact ⟨rfl, rfl, two_pow_eq _⟩
  · next hcond =>
    have he : i % 2 = 0 := by
      rcases Nat.even_or_odd i with h2 | h2
      · exact Nat.even_iff.mp h2
      · exact absurd (is_odd_iff.mpr (Nat.odd_iff.mp h2)) hcond
    have hd := depth_of_even he
    refine ⟨rfl, ?_, ?_⟩
    · show i / 2 = offset i
      rw [offset, hd, offset_with_depth, if_pos (is_even_iff.mpr he)]
    · show 2 = 2 ^ (depth i + 1)
      rw [hd, pow_one]

theorem next_spec {c : Iterator} (h : inv c) : inv c.next := by
  obtain ⟨ho, hf⟩ := h
  have hc := canon_self c.index
  exact inv_intro (c := c.next) (by rw [Iterator.next, hf]; exact canon_next hc)
    (by rw [Iterator.next, ho]) (by rw [Iterator.next, hf])

theorem prev_spec {c : Iterator} (h : inv c) : inv c.prev := by
  obtain ⟨ho, hf⟩ := h
  have hc := canon_self c.index
  rw [Iterator.prev]
  split
  · exact ⟨ho, hf⟩
  · next hne =>
    obtain ⟨q, hq⟩ : ∃ q, offset c.index = q + 1 := by
      rw [ho] at hne
      exact ⟨offset c.index - 1, by omega⟩
    have hcanon := (canon_prev (hq ▸ hc)).1
    exact inv_intro (c := ⟨_, _, _⟩) (by rw [hf]; exact hcanon)
      (by show c.offset - 1 = q; rw [ho, hq]; omega) (by rw [hf])

theorem sibling_spec {c : Iterator} (h : inv c) :
    inv c.sibling ∧ c.sibling.index = sibling c.index := by
  obtain ⟨ho, hf⟩ := h
  have hc := canon_self c.index
  rcases Nat.even_or_odd (offset c.index) with hpar | hpar
  · have he : offset c.index % 2 = 0 := Nat.even_iff.mp hpar
    have hleft : c.is_left = true := by
      rw [Iterator.is_left, ho, is_even_iff]
      exact he
    rw [Iterator.sibling, if_pos hleft]
    refine ⟨next_spec ⟨ho, hf⟩, ?_⟩
    rw [sibling_of_canon hc, xor_one_of_even he]
    show c.index + c.factor = _
    rw [hf]
    exact canon_unique_index (canon_next hc)
  · have hodd : offset c.index % 2 = 1 := Nat.odd_iff.mp hpar
    have hleft : ¬ (c.is_left = true) := by
      rw [Iterator.is_left, ho, is_even_iff]
      omega
    rw [Iterator.sibling, if_neg hleft]
    refine ⟨prev_spec ⟨ho, hf⟩, ?_⟩
    obtain ⟨q, hq⟩ : ∃ q, offset c.index = q + 1 := ⟨offset c.index - 1, by omega⟩
    have hcanon := canon_prev (hq ▸ hc)
    rw [Iterator.prev, if_neg (by rw [ho, hq]; omega)]
    rw [sibling_of_canon hc, xor_one_of_odd hodd, hq, Nat.add_sub_cancel]
    show c.index - c.factor = _
    rw [hf]
    exact canon_unique_index hcanon.1

theorem parent_spec {c : Iterator} (h : inv c) :
    inv c.parent ∧ c.parent.index = parent c.index := by
  obtain ⟨ho, hf⟩ := h
  have hc := canon_self c.index
  have hdiv : c.factor / 2 = 2 ^ depth c.index := by
    rw [hf, pow_succ]
    omega
  have hmul : c.factor * 2 = 2 ^ (depth c.index + 1 + 1) := by
    rw [hf, pow_succ 2 (depth c.index + 1)]
  rcases Nat.even_or_odd (offset c.index) with hpar | hpar
  · have he : offset c.index % 2 = 0 := Nat.even_iff.mp hpar
    obtain ⟨q, hq⟩ : ∃ q, offset c.index = 2 * q := ⟨offset c.index / 2, by omega⟩
    rw [Iterator.parent, if_neg (by rw [ho, is_odd_iff]; omega)]
    have hcanon := canon_parent_left (hq ▸ hc)
    refine ⟨inv_intro (c := ⟨_, _, _⟩) (by rw [hdiv]; exact hcanon)
      (by show c.offset / 2 = q; rw [ho, hq]; omega) (by rw [hmul]), ?_⟩
    show c.index + c.factor / 2 = _
    rw [hdiv, parent_of_canon hc, hq, Nat.mul_div_cancel_left _ (by omega)]
    exact canon_unique_index hcanon
  · have hodd : offset c.index % 2 = 1 := Nat.odd_iff.mp hpar
    obtain ⟨q, hq⟩ : ∃ q, offset c.index = 2 * q + 1 :=
      ⟨offset c.index / 2, by omega⟩
    rw [Iterator.parent, if_pos (by rw [ho, is_odd_iff]; exact hodd)]
    have hcanon := canon_parent_right (hq ▸ hc)
    refine ⟨inv_intro (c := ⟨_, _, _⟩) (by rw [hdiv]; exact hcanon.1)
      (by show (c.offset - 1) / 2 = q; rw [ho, hq]; omega) (by rw [hmul]), ?_⟩
    show c.index - c.factor / 2 = _
    rw [hdiv, parent_of_canon hc, hq]
    have hq2 : (2 * q + 1) / 2 = q := by omega
    rw [hq2]
    exact canon_unique_index hcanon.1

theorem left_span_spec {c : Iterator} (h : inv c) :
    inv c.left_span ∧ c.left_span.index = left_span c.index := by
  obtain ⟨ho, hf⟩ := h
  have hc := canon_self c.index
  have hdiv : c.factor / 2 = 2 ^ depth c.index := by
    rw [hf, pow_succ]
    omega
  obtain ⟨hL, hle, hcanon⟩ := canon_left_span hc
  have hL2 : c.index + 1 - c.factor / 2 =
      offset c.index * 2 ^ (depth c.index + 1) := by
    rw [hdiv]
    exact hL
  have hhalf : (c.index + 1 - c.factor / 2) / 2 =
      offset c.index * 2 ^ depth c.index := by
    rw [hL2, pow_succ, ← Nat.mul_assoc]
    omega
  rw [Iterator.left_span]
  refine ⟨@inv_intro _ (offset c.index * 2 ^ depth c.index) 0 ?_ hhalf ?_, ?_⟩
  · show Canon (c.index + 1 - c.factor / 2) (offset c.index * 2 ^ depth c.index) 0
    rw [hL2]
    exact hcanon
  · show (2 : Nat) = 2 ^ (0 + 1)
    norm_num
  · show c.index + 1 - c.factor / 2 = left_span c.index
    rw [left_span_of_canon hc]
    exact hL2

theorem right_span_spec {c : Iterator} (h : inv c) :
    inv c.right_span ∧ c.right_span.index = right_span c.index := by
  obtain ⟨ho, hf⟩ := h
  have hc := canon_self c.index
  have hdiv : c.factor / 2 = 2 ^ depth c.index := by
    rw [hf, pow_succ]
    omega
  obtain ⟨hR, hhalf, hcanon⟩ := canon_right_span hc
  rw [Iterator.right_span]
  refine ⟨@inv_intro _ ((offset c.index + 1) * 2 ^ depth c.index - 1) 0 ?_ ?_ ?_, ?_⟩
  · show Canon (c.index + c.factor / 2 - 1)
      ((offset c.index + 1) * 2 ^ depth c.index - 1) 0
    rw [hdiv]
    exact hcanon
  · show (c.index + c.factor / 2 - 1) / 2 =
      (offset c.index + 1) * 2 ^ depth c.index - 1
    rw [hdiv]
    exact hhalf
  · show (2 : Nat) = 2 ^ (0 + 1)
    norm_num
  · show c.index + c.factor / 2 - 1 = right_span c.index
    rw [right_span_of_canon hc, hdiv]
    exact hR

theorem two_pow_succ_succ_ne_two (d : Nat) : (2 : Nat) ^ (d + 1 + 1) ≠ 2 := by
  have h4 : (2 : Nat) ^ 2 ≤ 2 ^ (d + 1 + 1) :=
    Nat.pow_le_pow_right (by omega) (by omega)
  norm_num at h4
  omega

theorem left_child_spec {c : Iterator} (h : inv c) :
    inv c.left_child ∧ (c.factor = 2 ↔ left_child c.index = none) ∧
      c.left_child.index = (left_child c.index).getD c.index := by
  obtain ⟨ho, hf⟩ := h
  have hc := canon_self c.index
  rcases hd0 : depth c.index with _ | d
  · have hc0 : Canon c.index (offset c.index) 0 := hd0 ▸ hc
    have hf2 : c.factor = 2 := by
      rw [hf, hd0]
      norm_num
    rw [Iterator.left_child, if_pos hf2, left_child_of_canon_zero hc0]
    exact ⟨⟨ho, hf⟩, by simp [hf2], by simp⟩
  · have hc1 : Canon c.index (offset c.index) (d + 1) := hd0 ▸ hc
    have hne : c.factor ≠ 2 := by
      rw [hf, hd0]
      exact two_pow_succ_succ_ne_two d
    have hdiv1 : c.factor / 2 = 2 ^ (d + 1) := by
      rw [hf, hd0, pow_succ 2 (d + 1)]
      omega
    have hdiv2 : c.factor / 2 / 2 = 2 ^ d := by
      rw [hdiv1, pow_succ]
      omega
    have hcanon := canon_left_child hc1
    have hsome := left_child_of_canon_succ hc1
    rw [Iterator.left_child, if_neg hne, hsome]
    refine ⟨@inv_intro _ (offset c.index * 2) d ?_ ?_ ?_, ?_, ?_⟩
    · show Canon (c.index - c.factor / 2 / 2) (offset c.index * 2) d
      rw [hdiv2]
      exact hcanon.1
    · show c.offset * 2 = offset c.index * 2
      rw [ho]
    · show c.factor / 2 = 2 ^ (d + 1)
      exact hdiv1
    · exact iff_of_false hne (by simp)
    · show c.index - c.factor / 2 / 2 = (some (index d (offset c.index * 2))).getD c.index
      rw [Option.getD_some, hdiv2]
      exact canon_unique_index hcanon.1

theorem right_child_spec {c : Iterator} (h : inv c) :
    inv c.right_child ∧ (c.factor = 2 ↔ right_child c.index = none) ∧
      c.right_child.index = (right_child c.index).getD c.index := by
  obtain ⟨ho, hf⟩ := h
  have hc := canon_self c.index
  rcases hd0 : depth c.index with _ | d
  · have hc0 : Canon c.index (offset c.index) 0 := hd0 ▸ hc
    have hf2 : c.factor = 2 := by
      rw [hf, hd0]
      norm_num
    rw [Iterator.right_child, if_pos hf2, right_child_of_canon_zero hc0]
    exact ⟨⟨ho, hf⟩, by simp [hf2], by simp⟩
  · have hc1 : Canon c.index (offset c.index) (d + 1) := hd0 ▸ hc
    have hne : c.factor ≠ 2 := by
      rw [hf, hd0]
      exact two_pow_succ_succ_ne_two d
    have hdiv1 : c.factor / 2 = 2 ^ (d + 1) := by
      rw [hf, hd0, pow_succ 2 (d + 1)]
      omega
    have hdiv2 : c.factor / 2 / 2 = 2 ^ d := by
      rw [hdiv1, pow_succ]
      omega
    have hcanon := canon_right_child hc1
    have hsome := right_child_of_canon_succ hc1
    rw [Iterator.right_child, if_neg hne, hsome]
    refine ⟨@inv_intro _ (offset c.index * 2 + 1) d ?_ ?_ ?_, ?_, ?_⟩
    · show Canon (c.index + c.factor / 2 / 2) (offset c.index * 2 + 1) d
      rw [hdiv2]
      exact hcanon
    · show 2 * c.offset + 1 = offset c.index * 2 + 1
      rw [ho]
      ring
    · show c.factor / 2 = 2 ^ (d + 1)
      exact hdiv1
    · exact iff_of_false hne (by simp)
    · show c.index + c.factor / 2 / 2 =
        (some (index d (offset c.index * 2 + 1))).getD c.index
      rw [Option.getD_some, hdiv2]
      exact canon_unique_index hcanon

/-! ### Full-roots decomposition -/

/-- Number of leaves spanned by the perfect subtree rooted at `r`. -/
def leafCount (r : Nat) : Nat := 2 ^ depth r

/-- The roots in the list tile the leaf range starting at index `off`:
each root's span starts exactly where the previous one ended (leaves sit
at every other index, so consecutive spans differ by 2), left to right. -/
def tilesFrom : Nat → List Nat → Prop
  | _, [] => True
  | off, r :: rest =>
      left_span r = off ∧ right_span r + 2 = off + 2 * leafCount r ∧
        tilesFrom (off + 2 * leafCount r) rest

theorem tilesFrom_nil (off : Nat) : tilesFrom off [] := trivial

theorem tilesFrom_cons {off r : Nat} {rest : List Nat} :
    tilesFrom off (r :: rest) ↔
      left_span r = off ∧ right_span r + 2 = off + 2 * leafCount r ∧
        tilesFrom (off + 2 * leafCount r) rest := Iff.rfl

theorem growFactor_spec {f tmp : Nat} (hf : 0 < f) (hle : f ≤ tmp) :
    ∃ m, growFactor f tmp = f * 2 ^ m ∧ f * 2 ^ m ≤ tmp ∧
      tmp < f * 2 ^ (m + 1) := by
  rw [growFactor, if_neg (by omega)]
  by_cases h2 : f * 2 ≤ tmp
  · rw [if_pos h2]
    obtain ⟨m, hm1, hm2, hm3⟩ := growFactor_spec (by omega) h2
    refine ⟨m + 1, ?_, ?_, ?_⟩
    · rw [hm1, pow_succ]
      ring
    · calc f * 2 ^ (m + 1) = f * 2 * 2 ^ m := by rw [pow_succ]; ring
        _ ≤ tmp := hm2
    · calc tmp < f * 2 * 2 ^ (m + 1) := hm3
        _ = f * 2 ^ (m + 1 + 1) := by rw [pow_succ 2 (m + 1)]; ring
  · rw [if_neg h2]
    refine ⟨0, by norm_num, ?_, ?_⟩
    · rw [pow_zero, Nat.mul_one]
      exact hle
    · rw [zero_add, pow_one]
      omega
termination_by tmp - f
decreasing_by omega

theorem canon_root {off e k : Nat} (hoff : off = k * 2 ^ (e + 1)) :
    Canon (off + 2 ^ e - 1) k e := by
  have h1 : (1 : Nat) ≤ 2 ^ e := Nat.one_le_two_pow
  rw [Canon, hoff]
  omega

theorem fullRootsList_spec (tmp off : Nat)
    (hk : ∃ k, off = k * (2 * growFactor 1 tmp)) :
    tilesFrom off (fullRootsList tmp off) ∧
    ((fullRootsList tmp off).map leafCount).sum = tmp ∧
    List.Chain' (fun a b => leafCount b < leafCount a) (fullRootsList tmp off) ∧
    (∀ r, (fullRootsList tmp off).head? = some r →
      leafCount r = growFactor 1 tmp) := by
  rw [fullRootsList]
  by_cases h0 : tmp = 0
  · rw [dif_pos h0]
    exact ⟨tilesFrom_nil off, by rw [h0]; rfl, List.chain'_nil, by simp⟩
  · rw [dif_neg h0]
    obtain ⟨e, he, he1, he2⟩ := @growFactor_spec 1 tmp Nat.one_pos (by omega)
    rw [one_mul] at he he1 he2
    have hpe : (1 : Nat) ≤ 2 ^ e := Nat.one_le_two_pow
    obtain ⟨k, hoffk⟩ := hk
    have hoff : off = k * 2 ^ (e + 1) := by
      rw [hoffk, he, pow_succ]
      ring
    rw [he]
    have hcanon := canon_root hoff
    have hd := depth_of_canon hcanon
    have hlc : leafCount (off + 2 ^ e - 1) = 2 ^ e := by
      rw [leafCount, hd]
    have hls : left_span (off + 2 ^ e - 1) = off := by
      rw [left_span_of_canon hcanon, hoff]
    have hrs : right_span (off + 2 ^ e - 1) + 2 = off + 2 * 2 ^ e := by
      have h := right_span_of_canon hcanon
      rw [h, hoff]
      simp only [pow_succ]
      have hge : (2 : Nat) ≤ (k + 1) * (2 ^ e * 2) := by nlinarith
      ring_nf
      ring_nf at hge
      omega
    -- divisibility for the recursive call
    have hk2 : ∃ q, off + 2 * 2 ^ e = q * (2 * growFactor 1 (tmp - 2 ^ e)) := by
      by_cases ht0 : tmp - 2 ^ e = 0
      · rw [ht0]
        have : growFactor 1 0 = 1 := by rw [growFactor]; norm_num
        rw [this]
        refine ⟨k * 2 ^ e + 2 ^ e, ?_⟩
        rw [hoff, pow_succ]
        ring
      · obtain ⟨e2, hf2, hf21, hf22⟩ :=
          @growFactor_spec 1 (tmp - 2 ^ e) Nat.one_pos (by omega)
        rw [one_mul] at hf2 hf21 hf22
        have hps : (2 : Nat) ^ (e + 1) = 2 ^ e * 2 := pow_succ 2 e
        have hlt : (2 : Nat) ^ e2 < 2 ^ e := by omega
        have hee : e2 < e := by
          by_contra hcon
          have hx : (2 : Nat) ^ e ≤ 2 ^ e2 :=
            Nat.pow_le_pow_right (by omega) (by omega)
          omega
        refine ⟨(k + 1) * 2 ^ (e - e2), ?_⟩
        rw [hf2]
        have hsplit : (2 : Nat) ^ (e + 1) = 2 ^ (e - e2) * 2 ^ (e2 + 1) := by
          rw [← pow_add]
          have harith : e - e2 + (e2 + 1) = e + 1 := by omega
          rw [harith]
        calc off + 2 * 2 ^ e = (k + 1) * 2 ^ (e + 1) := by
              rw [hoff, pow_succ]
              ring
          _ = (k + 1) * 2 ^ (e - e2) * (2 * 2 ^ e2) := by
              rw [hsplit, pow_succ]
              ring
    have IH := fullRootsList_spec (tmp - 2 ^ e) (off + 2 * 2 ^ e) hk2
    refine ⟨?_, ?_, ?_, ?_⟩
    · rw [tilesFrom_cons, hlc, hls]
      exact ⟨rfl, hrs, IH.1⟩
    · rw [List.map_cons, List.sum_cons, hlc, IH.2.1]
      omega
    · rw [List.chain'_cons']
      refine ⟨?_, IH.2.2.1⟩
      intro y hy
      by_cases ht0 : tmp - 2 ^ e = 0
      · rw [ht0] at hy
        rw [fullRootsList] at hy
        simp at hy
      · have hy2 := IH.2.2.2 y (Option.mem_def.mp hy)
        obtain ⟨e2, hf2, hf21, hf22⟩ :=
          @growFactor_spec 1 (tmp - 2 ^ e) Nat.one_pos (by omega)
        rw [one_mul] at hf2 hf21
        rw [hlc, hy2, hf2]
        have hps : (2 : Nat) ^ (e + 1) = 2 ^ e * 2 := pow_succ 2 e
        omega
    · intro r hr
      simp only [List.head?_cons, Option.some_inj] at hr
      rw [← hr, hlc]
termination_by tmp
decreasing_by omega

theorem tiles_cover (rs : List Nat) : ∀ off, off % 2 = 0 → tilesFrom off rs →
    ∀ j, (off ≤ 2 * j ∧ 2 * j < off + 2 * ((rs.map leafCount).sum)) ↔
      (∃ r ∈ rs, left_span r ≤ 2 * j ∧ 2 * j ≤ right_span r) := by
  induction rs with
  | nil =>
    intro off _ _ j
    simp only [List.map_nil, List.sum_nil, Nat.mul_zero, Nat.add_zero]
    constructor
    · omega
    · rintro ⟨r, hr, _⟩
      exact absurd hr (List.not_mem_nil r)
  | cons r rest ih =>
    intro off hoff ht j
    obtain ⟨h1, h2, h3⟩ := tilesFrom_cons.mp ht
    have hIH := ih (off + 2 * leafCount r) (by omega) h3 j
    simp only [List.map_cons, List.sum_cons]
    constructor
    · rintro ⟨ha, hb⟩
      by_cases hc : 2 * j < off + 2 * leafCount r
      · refine ⟨r, List.mem_cons_self r rest, ?_, ?_⟩
        · rw [h1]
          exact ha
        · omega
      · obtain ⟨q, hq, hsp⟩ := hIH.mp ⟨by omega, by omega⟩
        exact ⟨q, List.mem_cons_of_mem r hq, hsp⟩
    · rintro ⟨q, hq, hs1, hs2⟩
      rcases List.mem_cons.mp hq with rfl | hmem
      · constructor
        · rw [← h1]
          exact hs1
        · omega
      · have := hIH.mpr ⟨q, hmem, hs1, hs2⟩
        omega

/-! ### Claim theorems -/

/-- C1: for every index `i`, a freshly-seeked cursor's `parent`,
`sibling`, `left_span` and `right_span` moves return exactly the value of
the corresponding stateless function at `i`; `left_child`/`right_child`
agree with the Option-returning stateless functions on whether a child
exists (the cursor's leaf-level test `factor = 2` holds exactly when the
stateless function returns `none`) and on which index the child is (the
cursor returns the child when one exists, and `i` unchanged otherwise). -/
theorem cursor_seek_equiv (i : Nat) :
    ((Iterator.seek i).parent).index = parent i ∧
    ((Iterator.seek i).sibling).index = sibling i ∧
    ((Iterator.seek i).left_span).index = left_span i ∧
    ((Iterator.seek i).right_span).index = right_span i ∧
    ((Iterator.seek i).factor = 2 ↔ left_child i = none) ∧
    ((Iterator.seek i).left_child).index = (left_child i).getD i ∧
    ((Iterator.seek i).factor = 2 ↔ right_child i = none) ∧
    ((Iterator.seek i).right_child).index = (right_child i).getD i := by
  obtain ⟨hidx, hinv⟩ := seek_spec i
  refine ⟨?_, ?_, ?_, ?_, ?_, ?_, ?_, ?_⟩
  · have h := (parent_spec hinv).2
    rwa [hidx] at h
  · have h := (sibling_spec hinv).2
    rwa [hidx] at h
  · have h := (left_span_spec hinv).2
    rwa [hidx] at h
  · have h := (right_span_spec hinv).2
    rwa [hidx] at h
  · have h := (left_child_spec hinv).2.1
    rwa [hidx] at h
  · have h := (left_child_spec hinv).2.2
    rwa [hidx] at h
  · have h := (right_child_spec hinv).2.1
    rwa [hidx] at h
  · have h := (right_child_spec hinv).2.2
    rwa [hidx] at h

/-- C2: the cursor consistency invariant (`offset` equals the stateless
offset of `index`, `factor` equals `2 ^ (depth index + 1)`) holds after
`new(i)`/`seek(i)` for every `i` and is preserved by every single cursor
operation. -/
theorem cursor_invariant :
    (∀ i, inv (Iterator.seek i)) ∧
    ∀ c : Iterator, inv c →
      inv c.next ∧ inv c.prev ∧ inv c.sibling ∧ inv c.parent ∧
      inv c.left_span ∧ inv c.right_span ∧ inv c.left_child ∧
      inv c.right_child := by
  refine ⟨fun i => (seek_spec i).2, fun c h => ?_⟩
  exact ⟨next_spec h, prev_spec h, (sibling_spec h).1, (parent_spec h).1,
    (left_span_spec h).1, (right_span_spec h).1, (left_child_spec h).1,
    (right_child_spec h).1⟩

/-- Witness for C2: the invariant holds at the concrete cursor seeked to
index 3 (state `(3, 0, 8)`), and is preserved by a `parent` move. -/
theorem cursor_invariant_witness :
    inv ⟨3, 0, 8⟩ ∧ inv (Iterator.parent ⟨3, 0, 8⟩) := by
  have hinv : inv (⟨3, 0, 8⟩ : Iterator) := by
    constructor
    · simp [offset, offset_with_depth, depth, is_odd, is_even]
    · simp [depth, is_odd]
  exact ⟨hinv, (cursor_invariant.2 ⟨3, 0, 8⟩ hinv).2.2.2.1⟩

/-- C3: for every even boundary `i = 2 * n`, the full-roots decomposition
succeeds and emits roots whose leaf spans tile the leaf range from index 0
contiguously left to right without overlap, with strictly decreasing
subtree sizes (leaf counts), and whose total leaf coverage is exactly the
leaves `[0, n)`. -/
theorem full_roots_coverage (n : Nat) :
    ∃ rs, iter_full_roots (2 * n) = Except.ok rs ∧
      tilesFrom 0 rs ∧
      List.Chain' (fun a b => leafCount b < leafCount a) rs ∧
      (rs.map leafCount).sum = n ∧
      (∀ j, j < n ↔ ∃ r ∈ rs, left_span r ≤ 2 * j ∧ 2 * j ≤ right_span r) := by
  have hshift : (2 * n) >>> 1 = n := by
    rw [Nat.shiftRight_eq_div_pow, pow_one]
    omega
  have heven : is_even (2 * n) = true := is_even_iff.mpr (by omega)
  refine ⟨fullRootsList n 0, ?_, ?_⟩
  · rw [iter_full_roots, if_pos heven, hshift]
  obtain ⟨ht, hsum, hchain, _⟩ := fullRootsList_spec n 0 ⟨0, by simp⟩
  refine ⟨ht, hchain, hsum, ?_⟩
  intro j
  have hcov := tiles_cover (fullRootsList n 0) 0 (by omega) ht j
  constructor
  · intro hj
    exact hcov.mp ⟨by omega, by rw [hsum]; omega⟩
  · intro hex
    have hb := hcov.mpr hex
    rw [hsum] at hb
    omega

/-- C4 counterexample: `parent 2 = 1`, so `parent i > i` fails at the
right node `i = 2` (as the library's own doctest records). -/
theorem parent_two_eq_one : parent 2 = 1 ∧ ¬ (2 < parent 2) := by
  have h : parent 2 = 1 := by
    simp [parent, parent_with_depth, depth, offset_with_depth, is_odd,
      is_even, index]
  exact ⟨h, by omega⟩

/-- C4 amended: `parent i > i` for every left node (even offset); for
every right node (odd offset), `parent i < i`. -/
theorem parent_gt_iff_left (i : Nat) :
    (offset i % 2 = 0 → i < parent i) ∧ (offset i % 2 = 1 → parent i < i) := by
  have hc := canon_self i
  have hp := parent_of_canon hc
  have h1 : (1 : Nat) ≤ 2 ^ depth i := Nat.one_le_two_pow
  constructor
  · intro he
    obtain ⟨q, hq⟩ : ∃ q, offset i = 2 * q := ⟨offset i / 2, by omega⟩
    rw [hp, hq]
    have h2q : 2 * q / 2 = q := by omega
    rw [h2q, ← canon_unique_index (canon_parent_left (hq ▸ hc))]
    omega
  · intro ho
    obtain ⟨q, hq⟩ : ∃ q, offset i = 2 * q + 1 := ⟨offset i / 2, by omega⟩
    rw [hp, hq]
    have h2q : (2 * q + 1) / 2 = q := by omega
    have hcanon := canon_parent_right (hq ▸ hc)
    rw [h2q, ← canon_unique_index hcanon.1]
    have h2 := hcanon.2
    omega

/-- Witness for the amended C4: at the left node 0, `parent 0 = 1 > 0`;
at the right node 2, `parent 2 = 1 < 2`. -/
theorem parent_gt_iff_left_witness :
    offset 0 % 2 = 0 ∧ 0 < parent 0 ∧ offset 2 % 2 = 1 ∧ parent 2 < 2 := by
  have h0 : offset 0 % 2 = 0 := by
    simp [offset, offset_with_depth, depth, is_odd, is_even]
  have h2 : offset 2 % 2 = 1 := by
    simp [offset, offset_with_depth, depth, is_odd, is_even]
  exact ⟨h0, (parent_gt_iff_left 0).1 h0, h2, (parent_gt_iff_left 2).2 h2⟩

/-- C5: the full-roots constructor rejects every odd index and succeeds on
every even index.  In the source the rejection is `assert!(is_even(i))` —
a panic, i.e. an unconditional abort (modelled here as `Except.error`) —
not the typed, recoverable error the specification asks for. -/
theorem iter_full_roots_even_odd :
    (∀ m, iter_full_roots (2 * m + 1) =
      Except.error "You can only look up roots for depth 0 blocks") ∧
    (∀ m, ∃ rs, iter_full_roots (2 * m) = Except.ok rs) := by
  constructor
  · intro m
    rw [iter_full_roots, if_neg]
    simp only [is_even_iff]
    omega
  · intro m
    exact ⟨_, by rw [iter_full_roots, if_pos (is_even_iff.mpr (by omega))]⟩

/-- C6: `sibling_with_depth` re-derives the depth of its argument (it
calls `offset i`, not `offset_with_depth i depth`): at `i = 7`,
`depth = 1` the code returns 5, while the claimed depth-trusting formula
`index depth (offset_with_depth i depth ^^^ 1)` gives 1. -/
theorem sibling_with_depth_rederives :
    sibling_with_depth 7 1 = 5 ∧
    index 1 (offset_with_depth 7 1 ^^^ 1) = 1 ∧
    sibling_with_depth 7 1 ≠ index 1 (offset_with_depth 7 1 ^^^ 1) := by
  refine ⟨?_, ?_, ?_⟩
  · simp [sibling_with_depth, offset, offset_with_depth, depth, is_odd,
      is_even, index]
  · simp [offset_with_depth, is_even, index]
  · simp [sibling_with_depth, offset, offset_with_depth, depth, is_odd,
      is_even, index]

/-- C7: round-trip bijection — `depth (index d o) = d`,
`offset_with_depth (index d o) d = o`, and conversely
`index (depth i) (offset i) = i` for every `i`. -/
theorem round_trip :
    (∀ d o, depth (index d o) = d ∧ offset_with_depth (index d o) d = o) ∧
    (∀ i, index (depth i) (offset i) = i) := by
  constructor
  · intro d o
    exact ⟨depth_of_canon (canon_index d o), owd_of_canon (canon_index d o)⟩
  · intro i
    exact (canon_unique_index (canon_self i)).symm

/-- C8: `sibling` is an involution. -/
theorem sibling_involution (i : Nat) : sibling (sibling i) = i := by
  have hc := canon_self i
  have h1 : sibling i = index (depth i) (offset i ^^^ 1) := sibling_of_canon hc
  have hc2 : Canon (sibling i) (offset i ^^^ 1) (depth i) := h1 ▸ canon_index _ _
  rw [sibling_of_canon hc2, Nat.xor_cancel_right]
  exact (canon_unique_index hc).symm

/-- C9: cursor boundary no-ops — `prev` at `offset = 0` and
`left_child`/`right_child` at leaf level (`factor = 2`) return the
current index and leave the whole cursor state unchanged. -/
theorem cursor_boundary_noops (c : Iterator) :
    (c.offset = 0 → c.prev = c ∧ c.prev.index = c.index) ∧
    (c.factor = 2 →
      (c.left_child = c ∧ c.left_child.index = c.index) ∧
      (c.right_child = c ∧ c.right_child.index = c.index)) := by
  constructor
  · intro h
    rw [Iterator.prev, if_pos h]
    exact ⟨rfl, rfl⟩
  · intro h
    rw [Iterator.left_child, if_pos h, Iterator.right_child, if_pos h]
    exact ⟨⟨rfl, rfl⟩, rfl, rfl⟩

/-- Witness for C9 at the concrete cursor `(0, 0, 2)`. -/
theorem cursor_boundary_noops_witness :
    Iterator.prev ⟨0, 0, 2⟩ = ⟨0, 0, 2⟩ ∧
    Iterator.left_child ⟨0, 0, 2⟩ = ⟨0, 0, 2⟩ :=
  ⟨((cursor_boundary_noops ⟨0, 0, 2⟩).1 rfl).1,
    (((cursor_boundary_noops ⟨0, 0, 2⟩).2 rfl).1).1⟩

/-- C10: `full_roots i nodes` appends the emitted roots after the
caller's elements: on success, every element already in `nodes` is
unchanged at its position, and what follows is exactly the emitted
stream. -/
theorem full_roots_appends (i : Nat) (nodes res : List Nat)
    (h : full_roots i nodes = Except.ok res) :
    (∀ k, k < nodes.length → res.getD k 0 = nodes.getD k 0) ∧
    res.drop nodes.length = fullRootsList (i >>> 1) 0 := by
  rw [full_roots, iter_full_roots] at h
  by_cases he : is_even i = true
  · rw [if_pos he] at h
    simp only [Except.map] at h
    injection h with h
    constructor
    · intro k hk
      rw [← h]
      exact List.getD_append nodes _ 0 k hk
    · rw [← h]
      exact List.drop_left nodes _
  · rw [if_neg he] at h
    simp only [Except.map] at h
    exact absurd h (by simp)

/-- Witness for C10: `full_roots 2 [42]` appends the emitted root 0 after
the untouched element 42. -/
theorem full_roots_appends_witness :
    full_roots 2 [42] = Except.ok [42, 0] ∧
    [42, 0].getD 0 0 = [42].getD 0 0 ∧
    List.drop 1 [42, 0] = fullRootsList (2 >>> 1) 0 := by
  have h : full_roots 2 [42] = Except.ok [42, 0] := by
    simp [full_roots, iter_full_roots, is_even, fullRootsList, growFactor,
      Except.map]
  refine ⟨h, (full_roots_appends 2 [42] [42, 0] h).1 0 (by simp), ?_⟩
  exact (full_roots_appends 2 [42] [42, 0] h).2

end FlatTree
